import Mathlib

/-!
Verification development for the state-resolution core of the ruma repository
(Matrix "state resolution v2") and some surrounding identifier utilities.

The data model and the test-harness operations (`TestStore::auth_event_ids`,
`do_check`'s end-state filter, `to_pdu_event` / `to_init_pdu_event`,
`INITIAL_EVENTS`, `TestStore::set_up`) are shallowly embedded from
`crates/ruma-state-res/src/test_utils.rs`; the key-identifier accessors are
embedded from `crates/ruma-common/src/identifiers/key_id.rs`.  The resolver
itself (`resolve`, `lexicographical_topological_sort`, the auth rule engine)
is not part of the provided sources, only its callers are; those operations
are modelled from the specification (each such definition carries a doc
comment starting with `Modelled from the spec:`).
-/

namespace Ruma

/-- Event identifiers are opaque strings (e.g. `"$CREATE:foo"`). -/
abbrev EventId := String

/-- The event types the state-resolution core inspects, from the namespaced
event vocabulary (`m.room.create`, `m.room.member`, ...). -/
inductive EventType where
  | roomCreate
  | roomMember
  | roomPowerLevels
  | roomJoinRules
  | roomMessage
  | roomThirdPartyInvite
  | roomRedaction
  | otherType (s : String)
deriving DecidableEq, Repr

/-- `m.room.member` membership values (`join`, `invite`, `leave`, `ban`,
`knock`). -/
inductive Memb where
  | join
  | invite
  | leave
  | ban
  | knock
deriving DecidableEq, Repr

/-- `m.room.join_rules` content values. -/
inductive JoinRule where
  | publicRule
  | inviteRule
  | knockRule
  | restrictedRule
  | privateRule
deriving DecidableEq, Repr

/-- Power-levels snapshot derived from an `m.room.power_levels` event's
content; missing fields default to the protocol defaults
(`users_default = 0`, `events_default = 0`, `state_default = 50`,
`ban = kick = redact = 50`, `invite = 0`). -/
structure PowerLevelsContent where
  users : List (String × Int) := []
  usersDefault : Int := 0
  events : List (EventType × Int) := []
  eventsDefault : Int := 0
  stateDefault : Int := 50
  banLvl : Int := 50
  kickLvl : Int := 50
  redactLvl : Int := 50
  inviteLvl : Int := 0
deriving DecidableEq, Repr

/-- The decoded shapes of event content that the core inspects (§6 of the
spec); everything else is `otherContent`. -/
inductive Content where
  | member (m : Memb)
  | joinRule (r : JoinRule)
  | power (p : PowerLevelsContent)
  | create (creator : String)
  | otherContent
deriving DecidableEq, Repr

/-- An event as seen through the Event View capability: the fields of
`RoomV3Pdu` that the resolution core reads (embedded from the `StateEvent`
wrapper in `test_utils.rs`). -/
structure StateEvent where
  event_id : EventId
  sender : String
  event_type : EventType
  state_key : Option String
  content : Content
  auth_events : List EventId
  prev_events : List EventId
  origin_server_ts : Nat
  depth : Nat := 0
  redacts : Option EventId := none
deriving DecidableEq, Repr

/-- A state key: `(event_type, state_key)`. -/
abbrev StateKey := EventType × String

/-- A state map: finite mapping `(event_type, state_key) → event_id`,
represented as an association list (first binding wins). -/
abbrev StateMap := List (StateKey × EventId)

/-- Lookup in a state map (first binding for the key, as in a hash map). -/
def smLookup : StateMap → StateKey → Option EventId
  | [], _ => none
  | (k, v) :: rest, key => if k = key then some v else smLookup rest key

/-- Insert/overwrite a binding in a state map. -/
def smInsert (m : StateMap) (k : StateKey) (v : EventId) : StateMap :=
  (k, v) :: m.filter (fun p => p.1 ≠ k)

theorem smLookup_insert_self (m : StateMap) (k : StateKey) (v : EventId) :
    smLookup (smInsert m k v) k = some v := by
  simp [smInsert, smLookup]

theorem smLookup_filter_ne (m : StateMap) (k k' : StateKey)
    (h : k' ≠ k) : smLookup (m.filter (fun p => p.1 ≠ k)) k' = smLookup m k' := by
  induction m with
  | nil => rfl
  | cons p rest ih =>
    by_cases hk : p.1 = k
    · have hd : decide (p.1 ≠ k) = false := by simp [hk]
      have hne : ¬ (p.1 = k') := by
        rw [hk]; exact fun hh => h hh.symm
      simp only [List.filter_cons, hd, Bool.false_eq_true, if_false, smLookup,
        if_neg hne]
      exact ih
    · have hd : decide (p.1 ≠ k) = true := by simp [hk]
      simp only [List.filter_cons, hd, if_true, smLookup]
      by_cases hk' : p.1 = k'
      · rw [if_pos hk', if_pos hk']
      · rw [if_neg hk', if_neg hk']
        exact ih

theorem smLookup_insert_ne (m : StateMap) (k k' : StateKey) (v : EventId)
    (h : k' ≠ k) : smLookup (smInsert m k v) k' = smLookup m k' := by
  simp only [smInsert, smLookup]
  rw [if_neg (fun hh => h hh.symm), smLookup_filter_ne m k k' h]

/-- Membership (some binding) of a key in a state map. -/
def smContains (m : StateMap) (k : StateKey) : Bool :=
  (smLookup m k).isSome

/-- Boolean extensional equality of two state maps: identical key sets and
per-key values. -/
def smEquivB (a b : StateMap) : Bool :=
  a.all (fun p => smLookup b p.1 = smLookup a p.1) &&
    b.all (fun p => smLookup a p.1 = smLookup b p.1)

theorem smLookup_eq_none_of_not_memKey (m : StateMap) (k : StateKey)
    (h : k ∉ m.map Prod.fst) : smLookup m k = none := by
  induction m with
  | nil => rfl
  | cons p rest ih =>
    simp only [List.map, List.mem_cons] at h
    push_neg at h
    have h1 : ¬ p.1 = k := fun hh => h.1 hh.symm
    simp [smLookup, h1, ih h.2]

theorem smEquivB_iff (a b : StateMap) :
    smEquivB a b = true ↔ ∀ k, smLookup a k = smLookup b k := by
  constructor
  · intro h k
    simp only [smEquivB, Bool.and_eq_true, List.all_eq_true] at h
    by_cases ha : k ∈ a.map Prod.fst
    · obtain ⟨p, hp, hpk⟩ := List.mem_map.1 ha
      have := h.1 p hp
      rw [hpk] at this
      exact (of_decide_eq_true this).symm
    · by_cases hb : k ∈ b.map Prod.fst
      · obtain ⟨p, hp, hpk⟩ := List.mem_map.1 hb
        have := h.2 p hp
        rw [hpk] at this
        exact of_decide_eq_true this
      · rw [smLookup_eq_none_of_not_memKey a k ha,
          smLookup_eq_none_of_not_memKey b k hb]
  · intro h
    simp only [smEquivB, Bool.and_eq_true, List.all_eq_true]
    constructor
    · intro p _; exact decide_eq_true (h p.1).symm
    · intro p _; exact decide_eq_true (h p.1)

/-- Error taxonomy of the resolver (spec §7): a fetch miss
(`Error::NotFound` in the code, carrying a message) or a cycle during the
topological sort.  Auth denials are not errors. -/
inductive ResError where
  | NotFound (msg : String)
  | CycleDetected
deriving DecidableEq, Repr

/-- Sort key of the reverse-power-level Kahn sort (spec §4.2):
`(-sender_power, origin_server_ts, event_id)`. -/
abbrev SortKey := Int × Nat × String

/-- Strict lexicographic comparison of character lists by code point
(byte ordering of event ids). -/
def charListLt : List Char → List Char → Bool
  | [], [] => false
  | [], _ :: _ => true
  | _ :: _, [] => false
  | a :: as, b :: bs =>
    if a.val < b.val then true
    else if b.val < a.val then false
    else charListLt as bs

/-- String ordering used as the final tiebreak of the sort key. -/
def strLt (a b : String) : Bool := charListLt a.toList b.toList

/-- Strict lexicographic comparison of sort keys. -/
def keyLt (a b : SortKey) : Bool :=
  if a.1 < b.1 then true
  else if b.1 < a.1 then false
  else if a.2.1 < b.2.1 then true
  else if b.2.1 < a.2.1 then false
  else strLt a.2.2 b.2.2

/-- A sort input graph `G : event_id → set<event_id>`: edges from child to
parents within the given subset (spec §4.2), as an association list. -/
abbrev Graph := List (EventId × List EventId)

/-- The nodes of a sort graph. -/
def nodesOf (g : Graph) : List EventId := g.map Prod.fst

/-- Association-list lookup of a node's parent list. -/
def assocParents : Graph → EventId → List EventId
  | [], _ => []
  | (k, v) :: rest, n => if k = n then v else assocParents rest n

/-- The parents of a node within the graph. -/
def parentsOf (g : Graph) (n : EventId) : List EventId := assocParents g n

/-- A node is ready (indegree zero from within the subset) when all its
parents that are nodes of the graph have already been emitted. -/
def ready (g : Graph) (emitted : List EventId) (n : EventId) : Bool :=
  (parentsOf g n).all
    (fun p => !(decide (p ∈ nodesOf g)) || decide (p ∈ emitted))

/-- The minimum of a list under `keyLt` (the heap pop of the min-heap keyed
by the sort tuple). -/
def pickMin (key : EventId → SortKey) : List EventId → Option EventId
  | [] => none
  | x :: xs =>
    some (xs.foldl (fun b a => if keyLt (key a) (key b) then a else b) x)

/-- Modelled from the spec: the worker of `lexicographical_topological_sort`
(the function itself is not under `src/`, only its caller in
`test_utils.rs`).  Kahn-style: repeatedly admit the minimal (by the sort
key) node whose indegree from within the subset is zero, emit it, and
continue on the rest; fail with `CycleDetected` when the indegrees never
drain.  The fuel argument is set to the number of nodes by the caller. -/
def sortAux (g : Graph) (key : EventId → SortKey) :
    Nat → List EventId → List EventId → Except ResError (List EventId)
  | _, _, [] => .ok []
  | 0, _, _ :: _ => .error .CycleDetected
  | fuel + 1, emitted, x :: xs =>
    match pickMin key ((x :: xs).filter (ready g emitted)) with
    | none => .error .CycleDetected
    | some n =>
      match sortAux g key fuel (emitted ++ [n]) ((x :: xs).erase n) with
      | .error e => .error e
      | .ok rest => .ok (n :: rest)

/-- Modelled from the spec: `lexicographical_topological_sort` (spec §4.2),
a reverse-power-level lexicographic Kahn sort of an event subgraph. -/
def lexTopoSort (g : Graph) (key : EventId → SortKey) :
    Except ResError (List EventId) :=
  sortAux g key (nodesOf g).length [] (nodesOf g)

/-- Acyclicity of a finite graph, by its standard characterization: the
nodes admit a topological numbering in which every parent gets a strictly
smaller number than its child. -/
def Acyclic (g : Graph) : Prop :=
  ∃ rank : EventId → Nat,
    ∀ n p, n ∈ nodesOf g → p ∈ parentsOf g n → p ∈ nodesOf g →
      rank p < rank n

/-- The graph contains a cycle: a nonempty set of nodes each of which has a
parent inside the set (so the indegrees of the set can never drain). -/
def HasCycle (g : Graph) : Prop :=
  ∃ S : List EventId, S ≠ [] ∧ (∀ x ∈ S, x ∈ nodesOf g) ∧
    ∀ n ∈ S, ∃ p ∈ parentsOf g n, p ∈ S

/-- `a` appears strictly before `b` in the list `l`. -/
def before (l : List EventId) (a b : EventId) : Prop :=
  ∃ i j, i < j ∧ l.get? i = some a ∧ l.get? j = some b

/-- `a` is a strict ancestor of `b` through parent edges inside the graph
(this is how "a is in b's auth chain" reads on the sort input). -/
def ancestorIn (g : Graph) : EventId → EventId → Prop :=
  Relation.TransGen
    (fun p c => p ∈ parentsOf g c ∧ p ∈ nodesOf g ∧ c ∈ nodesOf g)

theorem foldl_choice_mem (key : EventId → SortKey) :
    ∀ (xs : List EventId) (x : EventId),
      xs.foldl (fun b a => if keyLt (key a) (key b) then a else b) x
        ∈ x :: xs := by
  intro xs
  induction xs with
  | nil => intro x; exact List.mem_singleton_self x
  | cons a xs ih =>
    intro x
    simp only [List.foldl_cons]
    have h := ih (if keyLt (key a) (key x) then a else x)
    rcases List.mem_cons.1 h with h' | h'
    · rw [h']
      by_cases hk : keyLt (key a) (key x) = true
      · simp only [hk, if_true]
        exact List.mem_cons_of_mem _ (List.mem_cons_self a xs)
      · simp only [Bool.not_eq_true] at hk
        simp only [hk, Bool.false_eq_true, if_false]
        exact List.mem_cons_self x (a :: xs)
    · exact List.mem_cons_of_mem _ (List.mem_cons_of_mem _ h')

theorem pickMin_mem {key : EventId → SortKey} {l : List EventId}
    {n : EventId} (h : pickMin key l = some n) : n ∈ l := by
  cases l with
  | nil => simp [pickMin] at h
  | cons x xs =>
    simp only [pickMin, Option.some.injEq] at h
    rw [← h]
    exact foldl_choice_mem key xs x

theorem pickMin_isSome (key : EventId → SortKey) (l : List EventId)
    (h : l ≠ []) : ∃ n, pickMin key l = some n := by
  cases l with
  | nil => exact absurd rfl h
  | cons x xs => exact ⟨_, rfl⟩

theorem sortAux_error (g : Graph) (key : EventId → SortKey) :
    ∀ (fuel : Nat) (emitted remaining : List EventId) (e : ResError),
      sortAux g key fuel emitted remaining = .error e →
      e = .CycleDetected := by
  intro fuel
  induction fuel with
  | zero =>
    intro emitted remaining e h
    cases remaining with
    | nil => simp [sortAux] at h
    | cons x xs =>
      simp only [sortAux, Except.error.injEq] at h
      exact h.symm
  | succ fuel ih =>
    intro emitted remaining e h
    cases remaining with
    | nil => simp [sortAux] at h
    | cons x xs =>
      simp only [sortAux] at h
      split at h
      · simp only [Except.error.injEq] at h
        exact h.symm
      · split at h
        · rename_i e' hr
          simp only [Except.error.injEq] at h
          rw [← h]
          exact ih _ _ _ hr
        · simp at h

theorem sortAux_perm (g : Graph) (key : EventId → SortKey) :
    ∀ (fuel : Nat) (emitted remaining l : List EventId),
      sortAux g key fuel emitted remaining = .ok l → l.Perm remaining := by
  intro fuel
  induction fuel with
  | zero =>
    intro emitted remaining l h
    cases remaining with
    | nil =>
      simp only [sortAux, Except.ok.injEq] at h
      subst h
      exact List.Perm.nil
    | cons x xs => simp [sortAux] at h
  | succ fuel ih =>
    intro emitted remaining l h
    cases remaining with
    | nil =>
      simp only [sortAux, Except.ok.injEq] at h
      subst h
      exact List.Perm.nil
    | cons x xs =>
      simp only [sortAux] at h
      split at h
      · simp at h
      · rename_i n hp
        split at h
        · simp at h
        · rename_i rest hr
          simp only [Except.ok.injEq] at h
          have hn : n ∈ x :: xs := (List.mem_filter.1 (pickMin_mem hp)).1
          rw [← h]
          exact (List.Perm.cons n (ih _ _ _ hr)).trans
            (List.perm_cons_erase hn).symm

theorem sortAux_order (g : Graph) (key : EventId → SortKey) :
    ∀ (fuel : Nat) (emitted remaining l : List EventId),
      sortAux g key fuel emitted remaining = .ok l →
      ∀ (i : Nat) (b : EventId), l.get? i = some b →
        ∀ p, p ∈ parentsOf g b → p ∈ nodesOf g →
          p ∈ emitted ∨ p ∈ l.take i := by
  intro fuel
  induction fuel with
  | zero =>
    intro emitted remaining l h i b hb p hp hpn
    cases remaining with
    | nil =>
      simp only [sortAux, Except.ok.injEq] at h
      subst h
      simp at hb
    | cons x xs => simp [sortAux] at h
  | succ fuel ih =>
    intro emitted remaining l h i b hb p hp hpn
    cases remaining with
    | nil =>
      simp only [sortAux, Except.ok.injEq] at h
      subst h
      simp at hb
    | cons x xs =>
      simp only [sortAux] at h
      split at h
      · simp at h
      · rename_i n hpick
        split at h
        · simp at h
        · rename_i rest hr
          simp only [Except.ok.injEq] at h
          subst h
          cases i with
          | zero =>
            have hb' : n = b := by
              simpa using hb
            subst hb'
            have hready : ready g emitted n = true :=
              (List.mem_filter.1 (pickMin_mem hpick)).2
            simp only [ready, List.all_eq_true] at hready
            have hd := hready p hp
            simp only [Bool.or_eq_true, Bool.not_eq_true',
              decide_eq_false_iff_not, decide_eq_true_eq] at hd
            rcases hd with hno | hyes
            · exact absurd hpn hno
            · exact Or.inl hyes
          | succ i =>
            have hres := ih _ _ _ hr i b (by simpa using hb) p hp hpn
            rcases hres with hmem | htake
            · rcases List.mem_append.1 hmem with he | hn1
              · exact Or.inl he
              · right
                have hpn' : p = n := List.mem_singleton.1 hn1
                subst hpn'
                show p ∈ p :: rest.take i
                exact List.mem_cons_self p _
            · right
              show p ∈ n :: rest.take i
              exact List.mem_cons_of_mem _ htake

theorem exists_rank_min (f : EventId → Nat) :
    ∀ (l : List EventId), l ≠ [] → ∃ n ∈ l, ∀ m ∈ l, f n ≤ f m := by
  intro l
  induction l with
  | nil => intro h; exact absurd rfl h
  | cons x xs ih =>
    intro _
    by_cases hxs : xs = []
    · subst hxs
      refine ⟨x, List.mem_singleton_self x, ?_⟩
      intro m hm
      rw [List.mem_singleton.1 hm]
    · obtain ⟨n, hn, hmin⟩ := ih hxs
      by_cases hle : f x ≤ f n
      · refine ⟨x, List.mem_cons_self x xs, ?_⟩
        intro m hm
        rcases List.mem_cons.1 hm with h | h
        · subst h; exact le_refl _
        · exact le_trans hle (hmin m h)
      · refine ⟨n, List.mem_cons_of_mem _ hn, ?_⟩
        intro m hm
        rcases List.mem_cons.1 hm with h | h
        · subst h; exact le_of_lt (lt_of_not_le hle)
        · exact hmin m h

theorem sortAux_ok (g : Graph) (key : EventId → SortKey) (hac : Acyclic g) :
    ∀ (fuel : Nat) (emitted remaining : List EventId),
      remaining.length ≤ fuel →
      (∀ x ∈ remaining, x ∈ nodesOf g) →
      (∀ x ∈ nodesOf g, x ∈ emitted ∨ x ∈ remaining) →
      ∃ l, sortAux g key fuel emitted remaining = .ok l := by
  obtain ⟨rank, hrank⟩ := hac
  intro fuel
  induction fuel with
  | zero =>
    intro emitted remaining hlen _ _
    have h0 : remaining = [] := List.length_eq_zero.1 (Nat.le_zero.1 hlen)
    subst h0
    exact ⟨[], rfl⟩
  | succ fuel ih =>
    intro emitted remaining hlen hsub hcov
    cases remaining with
    | nil => exact ⟨[], rfl⟩
    | cons x xs =>
      obtain ⟨n, hn, hmin⟩ :=
        exists_rank_min rank (x :: xs) (by simp)
      have hready : ready g emitted n = true := by
        simp only [ready, List.all_eq_true]
        intro p hp
        simp only [Bool.or_eq_true, Bool.not_eq_true',
          decide_eq_false_iff_not, decide_eq_true_eq]
        by_cases hpn : p ∈ nodesOf g
        · right
          have hlt : rank p < rank n := hrank n p (hsub n hn) hp hpn
          have hpr : p ∉ x :: xs := by
            intro hmem
            exact absurd (hmin p hmem) (not_le_of_lt hlt)
          rcases hcov p hpn with h | h
          · exact h
          · exact absurd h hpr
        · left; exact hpn
      have hfilter : n ∈ (x :: xs).filter (ready g emitted) :=
        List.mem_filter.2 ⟨hn, hready⟩
      obtain ⟨m, hm⟩ :=
        pickMin_isSome key _ (List.ne_nil_of_mem hfilter)
      have hmrem : m ∈ x :: xs := (List.mem_filter.1 (pickMin_mem hm)).1
      have hlen' : ((x :: xs).erase m).length ≤ fuel := by
        rw [List.length_erase_of_mem hmrem]
        simpa using Nat.le_of_succ_le_succ hlen
      have hsub' : ∀ y ∈ (x :: xs).erase m, y ∈ nodesOf g :=
        fun y hy => hsub y (List.erase_subset _ _ hy)
      have hcov' : ∀ y ∈ nodesOf g,
          y ∈ emitted ++ [m] ∨ y ∈ (x :: xs).erase m := by
        intro y hy
        rcases hcov y hy with h | h
        · exact Or.inl (List.mem_append.2 (Or.inl h))
        · by_cases hym : y = m
          · subst hym
            exact Or.inl (List.mem_append.2
              (Or.inr (List.mem_singleton_self y)))
          · exact Or.inr ((List.mem_erase_of_ne hym).2 h)
      obtain ⟨l, hl⟩ := ih (emitted ++ [m]) ((x :: xs).erase m) hlen' hsub' hcov'
      refine ⟨m :: l, ?_⟩
      simp [sortAux, hm, hl]

theorem mem_take_get? :
    ∀ (l : List EventId) (j : Nat) (a : EventId), a ∈ l.take j →
      ∃ i, i < j ∧ l.get? i = some a := by
  intro l
  induction l with
  | nil => intro j a h; simp at h
  | cons x xs ih =>
    intro j a h
    cases j with
    | zero => simp at h
    | succ j =>
      rcases List.mem_cons.1 (by simpa using h) with h' | h'
      · exact ⟨0, Nat.succ_pos j, by simp [h']⟩
      · obtain ⟨i, hij, hi⟩ := ih j a h'
        exact ⟨i + 1, Nat.succ_lt_succ hij, by simpa using hi⟩

theorem get?_inj_of_nodup :
    ∀ (l : List EventId), l.Nodup → ∀ (i j : Nat) (a : EventId),
      l.get? i = some a → l.get? j = some a → i = j := by
  intro l
  induction l with
  | nil => intro _ i j a h; simp at h
  | cons x xs ih =>
    intro hnd i j a hi hj
    have hx : x ∉ xs := (List.nodup_cons.1 hnd).1
    have hnd' : xs.Nodup := (List.nodup_cons.1 hnd).2
    cases i with
    | zero =>
      cases j with
      | zero => rfl
      | succ j =>
        have hxa : x = a := by simpa using hi
        have hj' : xs.get? j = some a := by simpa using hj
        exact absurd (hxa ▸ List.get?_mem hj') hx
    | succ i =>
      cases j with
      | zero =>
        have hxa : x = a := by simpa using hj
        have hi' : xs.get? i = some a := by simpa using hi
        exact absurd (hxa ▸ List.get?_mem hi') hx
      | succ j =>
        have hi' : xs.get? i = some a := by simpa using hi
        have hj' : xs.get? j = some a := by simpa using hj
        exact congrArg Nat.succ (ih hnd' i j a hi' hj')

theorem before_trans {l : List EventId} (hnd : l.Nodup) {a b c : EventId}
    (hab : before l a b) (hbc : before l b c) : before l a c := by
  obtain ⟨i, j, hij, ha, hb⟩ := hab
  obtain ⟨i', j', hij', hb', hc⟩ := hbc
  have : j = i' := get?_inj_of_nodup l hnd j i' b hb hb'
  exact ⟨i, j', lt_trans (this ▸ hij) hij', ha, hc⟩

theorem exists_first_pos :
    ∀ (l S : List EventId), (∃ s, s ∈ S) → (∀ x ∈ S, x ∈ l) →
      ∃ n ∈ S, ∃ j, l.get? j = some n ∧
        ∀ p ∈ S, ∀ i, l.get? i = some p → j ≤ i := by
  intro l
  induction l with
  | nil =>
    intro S hne hsub
    obtain ⟨s, hs⟩ := hne
    exact absurd (hsub s hs) (List.not_mem_nil s)
  | cons x xs ih =>
    intro S hne hsub
    by_cases hxS : x ∈ S
    · exact ⟨x, hxS, 0, rfl, fun p _ i _ => Nat.zero_le i⟩
    · have hsub' : ∀ y ∈ S, y ∈ xs := by
        intro y hy
        rcases List.mem_cons.1 (hsub y hy) with h | h
        · subst h; exact absurd hy hxS
        · exact h
      obtain ⟨n, hnS, j, hj, hmin⟩ := ih S hne hsub'
      refine ⟨n, hnS, j + 1, by simpa using hj, ?_⟩
      intro p hp i hi
      cases i with
      | zero =>
        have hxp : x = p := by simpa using hi
        exact absurd hp (hxp ▸ hxS)
      | succ i =>
        have hi' : xs.get? i = some p := by simpa using hi
        exact Nat.succ_le_succ (hmin p hp i hi')

/-- C2 (lexicographic topological sort is a total order respecting the
graph): for every acyclic graph `G` with distinct nodes and every key
function, `lexicographical_topological_sort` succeeds and returns a
duplicate-free total order over exactly the nodes of `G` in which every
parent precedes every child; consequently, whenever `a` is an ancestor of
`b` through parent (auth-chain) edges inside `G`, `a` appears before
`b`. -/
theorem lexTopoSort_total_order (g : Graph) (key : EventId → SortKey)
    (hnd : (nodesOf g).Nodup) (hac : Acyclic g) :
    ∃ l, lexTopoSort g key = .ok l ∧ l.Perm (nodesOf g) ∧ l.Nodup ∧
      (∀ b p, b ∈ nodesOf g → p ∈ parentsOf g b → p ∈ nodesOf g →
        before l p b) ∧
      (∀ a b, ancestorIn g a b → before l a b) := by
  obtain ⟨l, hok⟩ := sortAux_ok g key hac (nodesOf g).length [] (nodesOf g)
    (le_refl _) (fun x h => h) (fun x h => Or.inr h)
  have hperm : l.Perm (nodesOf g) := sortAux_perm g key _ _ _ _ hok
  have hlnd : l.Nodup := hperm.nodup_iff.2 hnd
  have hstep : ∀ b p, b ∈ nodesOf g → p ∈ parentsOf g b →
      p ∈ nodesOf g → before l p b := by
    intro b p hb hp hpn
    have hbl : b ∈ l := hperm.mem_iff.2 hb
    obtain ⟨j, hj⟩ := List.get?_of_mem hbl
    rcases sortAux_order g key _ _ _ _ hok j b hj p hp hpn with h | h
    · exact absurd h (List.not_mem_nil p)
    · obtain ⟨i, hij, hi⟩ := mem_take_get? l j p h
      exact ⟨i, j, hij, hi, hj⟩
  refine ⟨l, hok, hperm, hlnd, hstep, ?_⟩
  intro a b h
  induction h with
  | single hr => exact hstep _ _ hr.2.2 hr.1 hr.2.1
  | tail _ hr ihab =>
    exact before_trans hlnd ihab (hstep _ _ hr.2.2 hr.1 hr.2.1)

/-- C5 (cycle rejection): for every input graph containing a cycle — a
nonempty set of nodes each with a parent inside the set, such as
`A.auth = [B], B.auth = [A]` — the topological sort fails with
`CycleDetected`; no successful output exists because the indegrees of the
cycle never drain. -/
theorem lexTopoSort_cycle_detected (g : Graph) (key : EventId → SortKey)
    (hc : HasCycle g) : lexTopoSort g key = .error .CycleDetected := by
  cases hres : lexTopoSort g key with
  | error e =>
    rw [sortAux_error g key ((nodesOf g).length) [] (nodesOf g) e hres]
  | ok l =>
    exfalso
    obtain ⟨S, hSne, hSsub, hScyc⟩ := hc
    have hperm := sortAux_perm g key _ _ _ _ hres
    have horder := sortAux_order g key _ _ _ _ hres
    have hSl : ∀ x ∈ S, x ∈ l := fun x hx => hperm.mem_iff.2 (hSsub x hx)
    obtain ⟨s0, hs0⟩ := List.exists_mem_of_ne_nil S hSne
    obtain ⟨n, hnS, j, hj, hmin⟩ := exists_first_pos l S ⟨s0, hs0⟩ hSl
    obtain ⟨p, hpPar, hpS⟩ := hScyc n hnS
    rcases horder j n hj p hpPar (hSsub p hpS) with h | h
    · exact List.not_mem_nil p h
    · obtain ⟨i, hij, hi⟩ := mem_take_get? l j p h
      exact absurd (hmin p hpS i hi) (not_le_of_lt hij)

/-- A concrete two-node linear graph (`IMA`'s parent is `CREATE`), used to
instantiate the sort theorems. -/
def gLinear : Graph :=
  [("$IMA:foo", ["$CREATE:foo"]), ("$CREATE:foo", [])]

/-- A trivial key function (all zero except the id tiebreak). -/
def keyZero : EventId → SortKey := fun i => (0, 0, i)

/-- Witness for C2: the sort theorem applied to the concrete acyclic
two-node graph. -/
theorem lexTopoSort_total_order_witness :
    ∃ l, lexTopoSort gLinear keyZero = .ok l ∧
      l.Perm (nodesOf gLinear) ∧ l.Nodup ∧
      (∀ b p, b ∈ nodesOf gLinear → p ∈ parentsOf gLinear b →
        p ∈ nodesOf gLinear → before l p b) ∧
      (∀ a b, ancestorIn gLinear a b → before l a b) :=
  lexTopoSort_total_order gLinear keyZero (by decide)
    ⟨fun s => if s = "$CREATE:foo" then 0 else 1, by
      intro n p hn hp hpn
      simp only [gLinear, nodesOf, List.map, List.mem_cons] at hn
      rcases hn with h | h | h
      · subst h
        simp only [gLinear, parentsOf, assocParents, if_pos, if_true,
          List.mem_singleton, reduceIte] at hp
        subst hp
        decide
      · subst h
        simp only [gLinear, parentsOf, assocParents, reduceIte] at hp
        exact absurd hp (List.not_mem_nil p)
      · simp at h⟩

/-- The concrete two-node cyclic graph `A.auth = [B], B.auth = [A]`. -/
def gCyc : Graph :=
  [("$A:foo", ["$B:foo"]), ("$B:foo", ["$A:foo"])]

/-- Witness for C5: the cycle theorem applied to the concrete two-event
cycle. -/
theorem lexTopoSort_cycle_detected_witness :
    lexTopoSort gCyc keyZero = .error .CycleDetected :=
  lexTopoSort_cycle_detected gCyc keyZero
    ⟨["$A:foo", "$B:foo"], by decide, by decide, by decide⟩

/-- The event store of the test harness (`TestStore`): a map from event id
to event. -/
abbrev Store := List (EventId × StateEvent)

/-- Association-list lookup in a store (models `HashMap::get`). -/
def assocLookup : Store → EventId → Option StateEvent
  | [], _ => none
  | (k, v) :: rest, i => if k = i then some v else assocLookup rest i

/-- `TestStore::get_event`: lookup of an event, or `Error::NotFound` with
the message `"{id} not found"`. -/
def getEvent (store : Store) (i : EventId) : Except ResError StateEvent :=
  match assocLookup store i with
  | none => .error (.NotFound (i ++ " not found"))
  | some e => .ok e

/-- The part of the DFS termination measure contributed by unvisited store
entries (each can still push its `auth_events` once). -/
def authSum (store : Store) (result : List EventId) : Nat :=
  ((store.filter (fun p => p.1 ∉ result)).map
    (fun p => p.2.auth_events.length)).sum

/-- Termination measure of the auth-chain DFS: pending stack entries plus
the pushes still available from unvisited store entries. -/
def chainMeasure (store : Store) (result stack : List EventId) : Nat :=
  stack.length + authSum store result

/-- The DFS loop of `TestStore::auth_event_ids`: pop an id; skip it if
already collected; otherwise collect it, fail with `NotFound` if the store
lacks it, else push its `auth_events` (fuel makes the recursion structural;
`authEventIds` supplies provably sufficient fuel). -/
def authChainAux (store : Store) :
    Nat → List EventId → List EventId → Except ResError (List EventId)
  | _, result, [] => .ok result
  | 0, _, _ :: _ => .error (.NotFound "fuel exhausted")
  | fuel + 1, result, ev :: rest =>
    if ev ∈ result then authChainAux store fuel result rest
    else
      match assocLookup store ev with
      | none => .error (.NotFound (ev ++ " not found"))
      | some e =>
        authChainAux store fuel (ev :: result) (e.auth_events.reverse ++ rest)

/-- `TestStore::auth_event_ids`: DFS over `auth_events` edges only
(`prev_events` are never followed), starting from the given ids. -/
def authEventIds (store : Store) (ids : List EventId) :
    Except ResError (List EventId) :=
  authChainAux store (chainMeasure store [] ids) [] ids

/-- The ids the DFS can inspect: the starting ids, closed under the
`auth_events` of events present in the store. -/
inductive Reaches (store : Store) (ids : List EventId) : EventId → Prop where
  | start {x} : x ∈ ids → Reaches store ids x
  | step {x e p} : Reaches store ids x → assocLookup store x = some e →
      p ∈ e.auth_events → Reaches store ids p

/-- Strict ancestry through `auth_events` edges: reachable from a starting
id by at least one edge. -/
inductive StrictReach (store : Store) (ids : List EventId) : EventId → Prop where
  | head {x e p} : x ∈ ids → assocLookup store x = some e →
      p ∈ e.auth_events → StrictReach store ids p
  | tail {x e p} : StrictReach store ids x → assocLookup store x = some e →
      p ∈ e.auth_events → StrictReach store ids p

theorem authSum_mono (store : Store) (result result' : List EventId)
    (h : ∀ x ∈ result, x ∈ result') :
    authSum store result' ≤ authSum store result := by
  induction store with
  | nil => exact le_refl _
  | cons p rest ih =>
    simp only [authSum, List.filter_cons]
    by_cases h1 : p.1 ∈ result'
    · have hd1 : decide (p.1 ∉ result') = false := by simp [h1]
      rw [hd1]
      by_cases h2 : p.1 ∈ result
      · have hd2 : decide (p.1 ∉ result) = false := by simp [h2]
        rw [hd2]
        exact ih
      · have hd2 : decide (p.1 ∉ result) = true := by simp [h2]
        rw [hd2]
        simp only [Bool.false_eq_true, if_false, if_true, List.map_cons,
          List.sum_cons]
        exact le_trans ih (Nat.le_add_left _ _)
    · have h2 : p.1 ∉ result := fun hh => h1 (h p.1 hh)
      have hd1 : decide (p.1 ∉ result') = true := by simp [h1]
      have hd2 : decide (p.1 ∉ result) = true := by simp [h2]
      rw [hd1, hd2]
      simp only [if_true, List.map_cons, List.sum_cons]
      exact Nat.add_le_add_left ih _

theorem authSum_insert (store : Store) (result : List EventId)
    (ev : EventId) (e : StateEvent)
    (hl : assocLookup store ev = some e) (hnr : ev ∉ result) :
    authSum store (ev :: result) + e.auth_events.length
      ≤ authSum store result := by
  induction store with
  | nil => simp [assocLookup] at hl
  | cons p rest ih =>
    by_cases hk : p.1 = ev
    · have he : p.2 = e := by
        have : assocLookup (p :: rest) ev = some p.2 := by
          simp [assocLookup, hk]
        rw [this] at hl
        injection hl
      have hin : p.1 ∈ ev :: result := by rw [hk]; exact List.mem_cons_self _ _
      have hout : p.1 ∉ result := by rw [hk]; exact hnr
      simp only [authSum, List.filter_cons]
      have hd1 : decide (p.1 ∉ ev :: result) = false := by simp [hin]
      have hd2 : decide (p.1 ∉ result) = true := by simp [hout]
      rw [hd1, hd2]
      simp only [Bool.false_eq_true, if_false, if_true, List.map_cons,
        List.sum_cons]
      have hmono := authSum_mono rest result (ev :: result)
        (fun x hx => List.mem_cons_of_mem _ hx)
      rw [he]
      -- goal: authSum rest (ev :: result) + |auth e| ≤ |auth e| + authSum rest result
      simp only [authSum] at hmono ⊢
      omega
    · have hl' : assocLookup rest ev = some e := by
        have : assocLookup (p :: rest) ev
            = if p.1 = ev then some p.2 else assocLookup rest ev := by
          cases p; rfl
        rw [this, if_neg hk] at hl
        exact hl
      have ihr := ih hl'
      simp only [authSum, List.filter_cons]
      by_cases h2 : p.1 ∈ result
      · have hin : p.1 ∈ ev :: result := List.mem_cons_of_mem _ h2
        have hd1 : decide (p.1 ∉ ev :: result) = false := by simp [hin]
        have hd2 : decide (p.1 ∉ result) = false := by simp [h2]
        rw [hd1, hd2]
        simpa [authSum] using ihr
      · have hout : p.1 ∉ ev :: result := by
          intro hh
          rcases List.mem_cons.1 hh with h | h
          · exact hk h
          · exact h2 h
        have hd1 : decide (p.1 ∉ ev :: result) = true := by simp [hout]
        have hd2 : decide (p.1 ∉ result) = true := by simp [h2]
        rw [hd1, hd2]
        simp only [if_true, List.map_cons, List.sum_cons]
        simp only [authSum] at ihr ⊢
        omega

theorem authChainAux_ok (store : Store) (ids : List EventId) :
    ∀ (fuel : Nat) (result stack r : List EventId),
      chainMeasure store result stack ≤ fuel →
      authChainAux store fuel result stack = .ok r →
      (∀ x ∈ result, Reaches store ids x) →
      (∀ x ∈ stack, Reaches store ids x) →
      (∀ x ∈ result, ∀ e, assocLookup store x = some e →
        ∀ p ∈ e.auth_events, p ∈ result ∨ p ∈ stack) →
      (∀ x ∈ result, ∃ e, assocLookup store x = some e) →
      (∀ x ∈ ids, x ∈ result ∨ x ∈ stack) →
      (∀ x ∈ r, Reaches store ids x) ∧
        (∀ x ∈ r, ∀ e, assocLookup store x = some e →
          ∀ p ∈ e.auth_events, p ∈ r) ∧
        (∀ x ∈ r, ∃ e, assocLookup store x = some e) ∧
        (∀ x ∈ ids, x ∈ r) := by
  intro fuel
  induction fuel with
  | zero =>
    intro result stack r hm h ha hb hc hd he
    have hs : stack = [] := by
      simp only [chainMeasure] at hm
      exact List.length_eq_zero.1 (by omega)
    subst hs
    have hr : result = r := by simpa [authChainAux] using h
    subst hr
    refine ⟨ha, ?_, hd, ?_⟩
    · intro x hx e hle p hp
      rcases hc x hx e hle p hp with h' | h'
      · exact h'
      · exact absurd h' (List.not_mem_nil p)
    · intro x hx
      rcases he x hx with h' | h'
      · exact h'
      · exact absurd h' (List.not_mem_nil x)
  | succ fuel ih =>
    intro result stack r hm h ha hb hc hd he
    cases stack with
    | nil =>
      have hr : result = r := by simpa [authChainAux] using h
      subst hr
      refine ⟨ha, ?_, hd, ?_⟩
      · intro x hx e hle p hp
        rcases hc x hx e hle p hp with h' | h'
        · exact h'
        · exact absurd h' (List.not_mem_nil p)
      · intro x hx
        rcases he x hx with h' | h'
        · exact h'
        · exact absurd h' (List.not_mem_nil x)
    | cons ev rest =>
      simp only [authChainAux] at h
      by_cases hv : ev ∈ result
      · rw [if_pos hv] at h
        refine ih result rest r ?_ h ha
          (fun x hx => hb x (List.mem_cons_of_mem _ hx)) ?_ hd ?_
        · simp only [chainMeasure, List.length_cons] at hm ⊢
          omega
        · intro x hx e hle p hp
          rcases hc x hx e hle p hp with h' | h'
          · exact Or.inl h'
          · rcases List.mem_cons.1 h' with h'' | h''
            · exact Or.inl (h'' ▸ hv)
            · exact Or.inr h''
        · intro x hx
          rcases he x hx with h' | h'
          · exact Or.inl h'
          · rcases List.mem_cons.1 h' with h'' | h''
            · exact Or.inl (h'' ▸ hv)
            · exact Or.inr h''
      · rw [if_neg hv] at h
        cases hlk : assocLookup store ev with
        | none => rw [hlk] at h; simp at h
        | some e =>
          rw [hlk] at h
          have hre : Reaches store ids ev := hb ev (List.mem_cons_self _ _)
          refine ih (ev :: result) (e.auth_events.reverse ++ rest) r ?_ h
            ?_ ?_ ?_ ?_ ?_
          · simp only [chainMeasure, List.length_cons, List.length_append,
              List.length_reverse] at hm ⊢
            have hins := authSum_insert store result ev e hlk hv
            omega
          · intro x hx
            rcases List.mem_cons.1 hx with h' | h'
            · exact h' ▸ hre
            · exact ha x h'
          · intro x hx
            rcases List.mem_append.1 hx with h' | h'
            · exact Reaches.step hre hlk (List.mem_reverse.1 h')
            · exact hb x (List.mem_cons_of_mem _ h')
          · intro x hx e' hle' p hp
            rcases List.mem_cons.1 hx with h' | h'
            · subst h'
              have he' : e' = e := by
                rw [hlk] at hle'
                injection hle' with hh
                exact hh.symm
              subst he'
              exact Or.inr (List.mem_append.2
                (Or.inl (List.mem_reverse.2 hp)))
            · rcases hc x h' e' hle' p hp with h'' | h''
              · exact Or.inl (List.mem_cons_of_mem _ h'')
              · rcases List.mem_cons.1 h'' with h3 | h3
                · exact Or.inl (h3 ▸ List.mem_cons_self _ _)
                · exact Or.inr (List.mem_append.2 (Or.inr h3))
          · intro x hx
            rcases List.mem_cons.1 hx with h' | h'
            · exact ⟨e, h' ▸ hlk⟩
            · exact hd x h'
          · intro x hx
            rcases he x hx with h' | h'
            · exact Or.inl (List.mem_cons_of_mem _ h')
            · rcases List.mem_cons.1 h' with h'' | h''
              · exact Or.inl (h'' ▸ List.mem_cons_self _ _)
              · exact Or.inr (List.mem_append.2 (Or.inr h''))

theorem authChainAux_err (store : Store) (ids : List EventId) :
    ∀ (fuel : Nat) (result stack : List EventId) (er : ResError),
      chainMeasure store result stack ≤ fuel →
      authChainAux store fuel result stack = .error er →
      (∀ x ∈ stack, Reaches store ids x) →
      ∃ x, er = .NotFound (x ++ " not found") ∧ Reaches store ids x ∧
        assocLookup store x = none := by
  intro fuel
  induction fuel with
  | zero =>
    intro result stack er hm h _
    have hs : stack = [] := by
      simp only [chainMeasure] at hm
      exact List.length_eq_zero.1 (by omega)
    subst hs
    simp [authChainAux] at h
  | succ fuel ih =>
    intro result stack er hm h hb
    cases stack with
    | nil => simp [authChainAux] at h
    | cons ev rest =>
      simp only [authChainAux] at h
      by_cases hv : ev ∈ result
      · rw [if_pos hv] at h
        refine ih result rest er ?_ h
          (fun x hx => hb x (List.mem_cons_of_mem _ hx))
        simp only [chainMeasure, List.length_cons] at hm ⊢
        omega
      · rw [if_neg hv] at h
        cases hlk : assocLookup store ev with
        | none =>
          rw [hlk] at h
          simp only [Except.error.injEq] at h
          exact ⟨ev, h.symm, hb ev (List.mem_cons_self _ _), hlk⟩
        | some e =>
          rw [hlk] at h
          have hre : Reaches store ids ev := hb ev (List.mem_cons_self _ _)
          refine ih (ev :: result) (e.auth_events.reverse ++ rest) er ?_ h ?_
          · simp only [chainMeasure, List.length_cons, List.length_append,
              List.length_reverse] at hm ⊢
            have hins := authSum_insert store result ev e hlk hv
            omega
          · intro x hx
            rcases List.mem_append.1 hx with h' | h'
            · exact Reaches.step hre hlk (List.mem_reverse.1 h')
            · exact hb x (List.mem_cons_of_mem _ h')

/-- C4 amended (auth-chain DFS): `TestStore::auth_event_ids` returns, on
success, exactly the starting events together with every event reachable
from them through `auth_events` edges of events present in the store
(`prev_events` edges are never followed); it returns the `NotFound` error
exactly when some such reachable id is absent from the store, and every
error it returns is a `NotFound` naming a reachable absent id. -/
theorem authEventIds_correct (store : Store) (ids : List EventId) :
    (∀ r, authEventIds store ids = .ok r →
      (∀ x, x ∈ r ↔ Reaches store ids x)) ∧
    ((∃ er, authEventIds store ids = .error er) ↔
      (∃ x, Reaches store ids x ∧ assocLookup store x = none)) ∧
    (∀ er, authEventIds store ids = .error er →
      ∃ x, er = .NotFound (x ++ " not found") ∧ Reaches store ids x ∧
        assocLookup store x = none) := by
  have herr : ∀ er, authEventIds store ids = .error er →
      ∃ x, er = .NotFound (x ++ " not found") ∧ Reaches store ids x ∧
        assocLookup store x = none := by
    intro er h
    exact authChainAux_err store ids _ [] ids er (le_refl _) h
      (fun x hx => Reaches.start hx)
  have hok : ∀ r, authEventIds store ids = .ok r →
      (∀ x, x ∈ r ↔ Reaches store ids x) ∧
        (∀ x ∈ r, ∃ e, assocLookup store x = some e) := by
    intro r h
    obtain ⟨h1, h2, h3, h4⟩ := authChainAux_ok store ids _ [] ids r
      (le_refl _) h
      (fun x hx => absurd hx (List.not_mem_nil x))
      (fun x hx => Reaches.start hx)
      (fun x hx => absurd hx (List.not_mem_nil x))
      (fun x hx => absurd hx (List.not_mem_nil x))
      (fun x hx => Or.inr hx)
    refine ⟨fun x => ⟨h1 x, ?_⟩, h3⟩
    intro hre
    induction hre with
    | start hx => exact h4 _ hx
    | step _ hle hp ihx => exact h2 _ ihx _ hle _ hp
  refine ⟨fun r h => (hok r h).1, ⟨?_, ?_⟩, herr⟩
  · intro ⟨er, h⟩
    obtain ⟨x, _, hre, habs⟩ := herr er h
    exact ⟨x, hre, habs⟩
  · intro ⟨x, hre, habs⟩
    cases h : authEventIds store ids with
    | ok r =>
      obtain ⟨hiff, hpres⟩ := hok r h
      obtain ⟨e, he⟩ := hpres x ((hiff x).2 hre)
      rw [habs] at he
      exact absurd he (Option.noConfusion)
    | error er => exact ⟨er, rfl⟩

/-- A one-event store: `$X:foo` with no auth events. -/
def storeX : Store :=
  [("$X:foo",
    { event_id := "$X:foo", sender := "@alice:foo",
      event_type := EventType.roomCreate, state_key := some "",
      content := Content.create "@alice:foo", auth_events := [],
      prev_events := [], origin_server_ts := 0 })]

/-- Counterexample to C4 as stated: `auth_event_ids` does not return the
set of strict `auth_events` ancestors — on a store holding a single event
with no auth events it returns the starting event itself, which is not an
ancestor of anything. -/
theorem authEventIds_counterexample :
    authEventIds storeX ["$X:foo"] = .ok ["$X:foo"] ∧
      "$X:foo" ∈ ["$X:foo"] ∧
      ¬ StrictReach storeX ["$X:foo"] "$X:foo" := by
  refine ⟨rfl, by decide, ?_⟩
  intro h
  have hempty : ∀ (x : EventId) (e : StateEvent),
      assocLookup storeX x = some e → e.auth_events = [] := by
    intro x e hl
    simp only [storeX, assocLookup] at hl
    by_cases hx : ("$X:foo" : String) = x
    · rw [if_pos hx] at hl
      injection hl with hl'
      rw [← hl']
    · rw [if_neg hx] at hl
      exact absurd hl (Option.noConfusion)
  cases h with
  | head _ hl hp => rw [hempty _ _ hl] at hp; exact List.not_mem_nil _ hp
  | tail _ hl hp => rw [hempty _ _ hl] at hp; exact List.not_mem_nil _ hp

/-- Witness for C4's amended theorem: on the one-event store, the returned
chain contains the starting id and it is `Reaches`-reachable. -/
theorem authEventIds_correct_witness :
    Reaches storeX ["$X:foo"] "$X:foo" :=
  ((authEventIds_correct storeX ["$X:foo"]).1 ["$X:foo"] rfl
    "$X:foo").mp (by decide)

/-- The room versions the core enumerates (the harness always resolves with
Version 6). -/
inductive RoomVersion where
  | V1 | V2 | V3 | V4 | V5 | V6
deriving DecidableEq, Repr

/-- Modelled from the spec: the room-version gate for the `knock` join
rule; none of the enumerated versions (≤ 6) admits it. -/
def knockAllowed : RoomVersion → Bool := fun _ => false

/-- An event fetch function, `EventId → Option<Event>` (spec §6). -/
abbrev Fetch := EventId → Option StateEvent

/-- Modelled from the spec: `auth_types_for_event` (§6/§3; the function is
not under `src/`, only its caller in `test_utils.rs`) — the state keys an
event of the given shape may list in its `auth_events`: none for
`m.room.create`; otherwise the create event, the power levels and the
sender's membership, and for membership events additionally the target's
membership and (for join/invite/knock transitions) the join rules. -/
def authTypesForEvent (e : StateEvent) : List StateKey :=
  if e.event_type = EventType.roomCreate then []
  else
    [(EventType.roomCreate, ""), (EventType.roomPowerLevels, ""),
      (EventType.roomMember, e.sender)] ++
    (if e.event_type = EventType.roomMember then
      (match e.state_key with
        | some t => [(EventType.roomMember, t)]
        | none => []) ++
      (match e.content with
        | Content.member m =>
          if m = Memb.join ∨ m = Memb.invite ∨ m = Memb.knock then
            [(EventType.roomJoinRules, "")]
          else []
        | _ => [])
    else [])

/-- Association lookup of a user's explicit power-level entry. -/
def intLookup : List (String × Int) → String → Option Int
  | [], _ => none
  | (k, v) :: rest, u => if k = u then some v else intLookup rest u

/-- Association lookup of an event type's explicit power-level entry. -/
def etLookup : List (EventType × Int) → EventType → Option Int
  | [], _ => none
  | (k, v) :: rest, t => if k = t then some v else etLookup rest t

/-- A user's power under a power-levels snapshot: the `users` entry or
`users_default`. -/
def userPower (p : PowerLevelsContent) (u : String) : Int :=
  (intLookup p.users u).getD p.usersDefault

/-- The threshold to send an event: `events[type]`, defaulting to
`state_default` for state events and `events_default` otherwise. -/
def eventThreshold (p : PowerLevelsContent) (e : StateEvent) : Int :=
  match etLookup p.events e.event_type with
  | some v => v
  | none => if e.state_key.isSome then p.stateDefault else p.eventsDefault

/-- The membership of a user under an auth state: the content of the event
the state maps `(m.room.member, user)` to. -/
def membershipOf (fetch : Fetch) (S : StateMap) (u : String) : Option Memb :=
  match smLookup S (EventType.roomMember, u) with
  | none => none
  | some i =>
    match fetch i with
    | some ev =>
      match ev.content with
      | Content.member m => some m
      | _ => none
    | none => none

/-- The join rule under an auth state. -/
def joinRuleOf (fetch : Fetch) (S : StateMap) : Option JoinRule :=
  match smLookup S (EventType.roomJoinRules, "") with
  | none => none
  | some i =>
    match fetch i with
    | some ev =>
      match ev.content with
      | Content.joinRule r => some r
      | _ => none
    | none => none

/-- The power-levels snapshot under an auth state (protocol defaults when
the state has none). -/
def plOf (fetch : Fetch) (S : StateMap) : PowerLevelsContent :=
  match smLookup S (EventType.roomPowerLevels, "") with
  | none => {}
  | some i =>
    match fetch i with
    | some ev =>
      match ev.content with
      | Content.power p => p
      | _ => {}
    | none => {}

/-- The server part of a user id (everything after the first colon). -/
def domainOf (u : String) : String :=
  ((u.toList.dropWhile (fun c => c ≠ ':')).drop 1).asString

/-- Modelled from the spec: the Auth Rule Engine (§4.3; not under `src/`).
Given a candidate event and an auth state, decide authorize/deny: create
events must have no prev/auth events and a creator; declared auth events of
non-canonical types are extras and deny; membership transitions follow the
join/invite/leave/ban/knock rules; power-level changes require the sender
to dominate old and new values; redactions pass on power or same domain;
everything else is a power-threshold check with the sender joined. -/
def authCheck (rv : RoomVersion) (fetch : Fetch) (S : StateMap)
    (e : StateEvent) : Bool :=
  if e.event_type = EventType.roomCreate then
    e.prev_events = [] && e.auth_events = [] &&
      (match e.content with
        | Content.create c => c ≠ ""
        | _ => false)
  else
    (e.auth_events.all (fun aid =>
      match fetch aid with
      | none => true
      | some ae =>
        match ae.state_key with
        | none => false
        | some sk => (ae.event_type, sk) ∈ authTypesForEvent e)) &&
    (let pl := plOf fetch S
     let senderPl := userPower pl e.sender
     match e.event_type, e.content with
     | EventType.roomMember, Content.member m =>
       (let target := e.state_key.getD ""
        let curr := membershipOf fetch S target
        let senderMem := membershipOf fetch S e.sender
        let targetPl := userPower pl target
        match m with
        | Memb.join =>
          e.sender = target && curr ≠ some Memb.ban &&
            (curr = some Memb.join || curr = some Memb.invite ||
              (joinRuleOf fetch S = some JoinRule.publicRule &&
                (curr = none || curr = some Memb.leave ||
                  curr = some Memb.knock)))
        | Memb.invite =>
          senderMem = some Memb.join && senderPl ≥ pl.inviteLvl &&
            (curr = none || curr = some Memb.leave || curr = some Memb.knock)
        | Memb.leave =>
          (e.sender = target &&
            (curr = some Memb.join || curr = some Memb.invite ||
              curr = some Memb.knock)) ||
          (e.sender ≠ target && senderMem = some Memb.join &&
            senderPl ≥ pl.kickLvl && senderPl > targetPl &&
            curr ≠ some Memb.ban)
        | Memb.ban =>
          senderMem = some Memb.join && senderPl ≥ pl.banLvl &&
            senderPl > targetPl
        | Memb.knock =>
          knockAllowed rv && joinRuleOf fetch S = some JoinRule.knockRule &&
            e.sender = target && (curr = none || curr = some Memb.leave))
     | EventType.roomPowerLevels, Content.power newP =>
       membershipOf fetch S e.sender = some Memb.join &&
         senderPl ≥ eventThreshold pl e &&
         ((pl.users.map Prod.fst ++ newP.users.map Prod.fst).all (fun u =>
           let oldV := userPower pl u
           let newV := userPower newP u
           oldV = newV ||
             (senderPl ≥ oldV && senderPl ≥ newV &&
               (newV ≥ oldV || u = e.sender || senderPl > oldV))))
     | EventType.roomRedaction, _ =>
       membershipOf fetch S e.sender = some Memb.join &&
         (senderPl ≥ pl.redactLvl ||
           (match e.redacts with
            | some rid =>
              match fetch rid with
              | some re => domainOf re.sender = domainOf e.sender
              | none => false
            | none => false))
     | _, _ =>
       membershipOf fetch S e.sender = some Memb.join &&
         senderPl ≥ eventThreshold pl e)

/-- Modelled from the spec: the entries contributed by an event's own
declared `auth_events` (the identity constraints of the reconstructed auth
state). -/
def declaredAuthState (fetch : Fetch) (e : StateEvent) : StateMap :=
  e.auth_events.foldl (fun m aid =>
    match fetch aid with
    | some ae =>
      match ae.state_key with
      | some sk => smInsert m (ae.event_type, sk) aid
      | none => m
    | none => m) []

/-- Modelled from the spec: reconstruct an event's auth state during replay
(§4.5 stage 3) — the declared auth events, overridden by the current
partial result at the keys `auth_types_for_event` names. -/
def replayAuthState (fetch : Fetch) (S : StateMap) (e : StateEvent) :
    StateMap :=
  (authTypesForEvent e).foldl (fun m k =>
    match smLookup S k with
    | some i => smInsert m k i
    | none => m) (declaredAuthState fetch e)

/-- Modelled from the spec: one replay step of the resolver (stages 3–4) —
on authorization add/overwrite `(type, state_key) → event_id`; on denial
drop the event and continue with the partial state unchanged. -/
def replayStep (rv : RoomVersion) (fetch : Fetch) (S : StateMap)
    (e : StateEvent) : StateMap :=
  if authCheck rv fetch (replayAuthState fetch S e) e then
    match e.state_key with
    | some k => smInsert S (e.event_type, k) e.event_id
    | none => S
  else S

/-- Modelled from the spec: replay a sequence of events in order. -/
def replayAll (rv : RoomVersion) (fetch : Fetch) (S : StateMap)
    (es : List StateEvent) : StateMap :=
  es.foldl (replayStep rv fetch) S

/-- Modelled from the spec: the distinct values the input state maps hold
at a key. -/
def valsAt (stateSets : List StateMap) (k : StateKey) : List EventId :=
  (stateSets.filterMap (fun s => smLookup s k)).dedup

/-- All keys present in any input state map (deduplicated, in input
order — a deterministic iteration as §5 requires). -/
def allKeys (stateSets : List StateMap) : List StateKey :=
  ((stateSets.map (fun s => s.map Prod.fst)).flatten).dedup

/-- Modelled from the spec: the unconflicted value at a key, when all input
maps that contain the key agree on it (or only one contains it). -/
def uncValAt (stateSets : List StateMap) (k : StateKey) : Option EventId :=
  match valsAt stateSets k with
  | [v] => some v
  | _ => none

/-- Modelled from the spec (§4.5 stage 1): the unconflicted part of the
partition. -/
def unconflictedOf (stateSets : List StateMap) : StateMap :=
  (allKeys stateSets).filterMap (fun k =>
    match uncValAt stateSets k with
    | some v => some (k, v)
    | none => none)

/-- Modelled from the spec (§4.5 stage 1): the conflicted values. -/
def conflictedIdsOf (stateSets : List StateMap) : List EventId :=
  ((allKeys stateSets).map (fun k =>
    match valsAt stateSets k with
    | [_] => []
    | l => l)).flatten

/-- Modelled from the spec: the auth-chain difference — union of the
per-map auth chains minus their intersection. -/
def authChainDiff (authChainSets : List (List EventId)) : List EventId :=
  (authChainSets.flatten).dedup.filter
    (fun x => ¬ authChainSets.all (fun a => x ∈ a))

/-- Modelled from the spec (§4.5 stage 2): the full conflicted set. -/
def fullConflictedOf (stateSets : List StateMap)
    (authChainSets : List (List EventId)) : List EventId :=
  (conflictedIdsOf stateSets ++ authChainDiff authChainSets).dedup

/-- Fetch every id of a list, failing with `NotFound` on a miss. -/
def fetchAll (fetch : Fetch) : List EventId → Except ResError (List StateEvent)
  | [] => .ok []
  | i :: is =>
    match fetch i with
    | none => .error (.NotFound (i ++ " not found"))
    | some e =>
      match fetchAll fetch is with
      | .error er => .error er
      | .ok es => .ok (e :: es)

/-- The control event types of stage 3: power levels, join rules,
membership. -/
def isControlType : EventType → Bool
  | EventType.roomPowerLevels => true
  | EventType.roomJoinRules => true
  | EventType.roomMember => true
  | _ => false

/-- One saturation round of the stage-3 ancestor closure within the full
conflicted set. -/
def ctrlClosureStep (evs : List StateEvent) (all cur : List EventId) :
    List EventId :=
  (cur ++ ((evs.filter (fun e => e.event_id ∈ cur)).map
    (fun e => e.auth_events.filter (fun a => a ∈ all))).flatten).dedup

/-- Fueled saturation of the ancestor closure. -/
def ctrlClosure (evs : List StateEvent) (all : List EventId) :
    Nat → List EventId → List EventId
  | 0, cur => cur
  | fuel + 1, cur => ctrlClosure evs all fuel (ctrlClosureStep evs all cur)

/-- Modelled from the spec (§4.5 stage 3): the conflicted control events
plus their transitive auth-chain ancestors within the full conflicted
set. -/
def ctrlIdsOf (evs : List StateEvent) (all : List EventId) : List EventId :=
  ctrlClosure evs all all.length
    ((evs.filter (fun e => isControlType e.event_type)).map
      (fun e => e.event_id))

/-- Modelled from the spec: the power-levels event among an event's
declared `auth_events`. -/
def plInAuth (fetch : Fetch) (e : StateEvent) : Option EventId :=
  e.auth_events.find? (fun aid =>
    match fetch aid with
    | some ae => ae.event_type = EventType.roomPowerLevels
    | none => false)

/-- Modelled from the spec (§4.2): the sender's power immediately before an
event — read from the power-levels event its auth events reference,
defaulting when there is none. -/
def senderPowerAt (fetch : Fetch) (e : StateEvent) : Int :=
  match plInAuth fetch e with
  | some pid =>
    (match fetch pid with
     | some pe =>
       match pe.content with
       | Content.power p => userPower p e.sender
       | _ => userPower {} e.sender
     | none => userPower {} e.sender)
  | none => userPower {} e.sender

/-- Modelled from the spec (§4.2): the sort key
`(-sender_power, origin_server_ts, event_id)`. -/
def sortKeyOf (fetch : Fetch) (e : StateEvent) : SortKey :=
  (-(senderPowerAt fetch e), e.origin_server_ts, e.event_id)

/-- The sort key of a node id, looked up among the fetched events. -/
def idSortKey (fetch : Fetch) (evs : List StateEvent) (i : EventId) :
    SortKey :=
  match evs.find? (fun e => e.event_id = i) with
  | some e => sortKeyOf fetch e
  | none => (0, 0, i)

/-- The stage-3 sort graph: each control event points at its auth-event
parents within the control set. -/
def ctrlGraph (evs : List StateEvent) (ctrl : List EventId) : Graph :=
  (evs.filter (fun e => e.event_id ∈ ctrl)).map
    (fun e => (e.event_id, e.auth_events.filter (fun a => a ∈ ctrl)))

/-- Resolve a sorted id list back to events. -/
def eventsById (evs : List StateEvent) (ids : List EventId) :
    List StateEvent :=
  ids.filterMap (fun i => evs.find? (fun e => e.event_id = i))

/-- Modelled from the spec (§4.4): the mainline of a power-levels event —
the chain of power-levels events followed via `auth_events`. -/
def mainlineChain (fetch : Fetch) : Nat → Option EventId → List EventId
  | 0, _ => []
  | _, none => []
  | fuel + 1, some p =>
    p :: mainlineChain fetch fuel
      (match fetch p with
       | some pe => plInAuth fetch pe
       | none => none)

/-- Index of an id in a mainline (0 when absent). -/
def idxIn : List EventId → EventId → Nat
  | [], _ => 0
  | x :: xs, a => if x = a then 0 else idxIn xs a + 1

/-- Modelled from the spec (§4.4): the mainline depth of an event relative
to the reference mainline, recursing through auth events when the event
lacks a direct power-levels link. -/
def mainlineDepth (fetch : Fetch) (chain : List EventId) :
    Nat → StateEvent → Nat
  | 0, _ => 0
  | fuel + 1, e =>
    match plInAuth fetch e with
    | some pid =>
      if pid ∈ chain then idxIn chain pid
      else
        match fetch pid with
        | some pe => mainlineDepth fetch chain fuel pe
        | none => 0
    | none =>
      match e.auth_events.filterMap fetch with
      | [] => 0
      | a :: _ => mainlineDepth fetch chain fuel a

/-- Modelled from the spec (§4.4): the mainline sort key
`(mainline_depth, origin_server_ts, event_id)`. -/
def mlKeyOf (fetch : Fetch) (chain : List EventId) (fuel : Nat)
    (e : StateEvent) : SortKey :=
  (Int.ofNat (mainlineDepth fetch chain fuel e), e.origin_server_ts,
    e.event_id)

/-- Stable insertion into a sorted list. -/
def insertSorted (lt : StateEvent → StateEvent → Bool) (e : StateEvent) :
    List StateEvent → List StateEvent
  | [] => [e]
  | x :: xs => if lt e x then e :: x :: xs else x :: insertSorted lt e xs

/-- Stable insertion sort by a strict comparison. -/
def sortByKey (lt : StateEvent → StateEvent → Bool)
    (es : List StateEvent) : List StateEvent :=
  es.foldr (insertSorted lt) []

/-- Modelled from the spec (§4.5 stage 5): apply every unconflicted entry
on top of the replayed result; unconflicted entries are authoritative. -/
def overlay (base : StateMap) (unconf : StateMap) : StateMap :=
  unconf.foldl (fun m p => smInsert m p.1 p.2) base

/-- Modelled from the spec: stages 3–4 of the resolver — topological
replay of the control events from the unconflicted state, then
mainline-ordered replay of the remaining conflicted events. -/
def stage4Result (rv : RoomVersion) (fetch : Fetch) (unconf : StateMap)
    (evs : List StateEvent) (ctrl : List EventId) (sorted : List EventId) :
    StateMap :=
  let s3 := replayAll rv fetch unconf (eventsById evs sorted)
  let rest := evs.filter (fun e => ¬ e.event_id ∈ ctrl)
  let chain := mainlineChain fetch (evs.length + 1)
    (smLookup s3 (EventType.roomPowerLevels, ""))
  let sortedRest := sortByKey
    (fun a b => keyLt (mlKeyOf fetch chain evs.length a)
      (mlKeyOf fetch chain evs.length b)) rest
  replayAll rv fetch s3 sortedRest

/-- Modelled from the spec: stages 3–5 of the resolver after the fallible
steps have succeeded — the replays of stages 3–4 followed by the
unconflicted overlay (stage 5). -/
def resolveStages (rv : RoomVersion) (fetch : Fetch) (unconf : StateMap)
    (evs : List StateEvent) (ctrl : List EventId) (sorted : List EventId) :
    StateMap :=
  overlay (stage4Result rv fetch unconf evs ctrl sorted) unconf

/-- Modelled from the spec: the resolver
`resolve(room_version, state_sets, auth_chain_sets, fetch)` (§4.5; the
function is absent from `src/`, only its harness callers are present).
Stage 1 partitions keys into unconflicted and conflicted; stage 2 joins the
conflicted values with the auth-chain difference; stage 3 topologically
replays the conflicted control events; stage 4 replays the remaining
conflicted events in mainline order; stage 5 overlays the unconflicted
entries.  It fails only on a fetch miss or a cycle. -/
def resolve (rv : RoomVersion) (stateSets : List StateMap)
    (authChainSets : List (List EventId)) (fetch : Fetch) :
    Except ResError StateMap :=
  match fetchAll fetch (fullConflictedOf stateSets authChainSets) with
  | .error er => .error er
  | .ok evs =>
    match lexTopoSort
        (ctrlGraph evs (ctrlIdsOf evs (fullConflictedOf stateSets authChainSets)))
        (idSortKey fetch evs) with
    | .error er => .error er
    | .ok sorted =>
      .ok (resolveStages rv fetch (unconflictedOf stateSets) evs
        (ctrlIdsOf evs (fullConflictedOf stateSets authChainSets)) sorted)

/-- The harness `event_id` helper: a bare name is wrapped as
`"$name:foo"`; a name already containing `$` is kept. -/
def mkEventId (s : String) : EventId :=
  if s.toList.contains '$' then s else "$" ++ s ++ ":foo"

/-- The arguments of `to_pdu_event` / `to_init_pdu_event`. -/
structure PduArgs where
  id : String
  sender : String
  ev_type : EventType
  state_key : Option String
  content : Content
  auth_events : List String := []
  prev_events : List String := []

/-- `to_pdu_event`: builds an event at the given `SERVER_TIMESTAMP` counter
value; the id and the referenced ids are wrapped by `event_id`. -/
def toPduEvent (ts : Nat) (a : PduArgs) : StateEvent :=
  { event_id := mkEventId a.id, sender := a.sender,
    event_type := a.ev_type, state_key := a.state_key,
    content := a.content,
    auth_events := a.auth_events.map mkEventId,
    prev_events := a.prev_events.map mkEventId,
    origin_server_ts := ts }

/-- The shared `SERVER_TIMESTAMP` counter (`fetch_add(1)` per builder
call) threaded through a sequence of builder calls: the `i`-th built event
gets timestamp `c + i`. -/
def buildAll (c : Nat) : List PduArgs → List StateEvent
  | [] => []
  | a :: rest => toPduEvent c a :: buildAll (c + 1) rest

/-- `@alice:foo`. -/
def alice : String := "@alice:foo"

/-- `@bob:foo`. -/
def bob : String := "@bob:foo"

/-- `@charlie:foo`. -/
def charlie : String := "@charlie:foo"

/-- `member_content_join()`. -/
def memberJoin : Content := Content.member Memb.join

/-- The five events `TestStore::set_up` builds and stores (the shared
counter is modelled as starting at 0). -/
def setUpEvents : List StateEvent :=
  buildAll 0
    [ { id := "CREATE", sender := alice, ev_type := EventType.roomCreate,
        state_key := some "", content := Content.create alice },
      { id := "IMA", sender := alice, ev_type := EventType.roomMember,
        state_key := some alice, content := memberJoin,
        auth_events := ["CREATE"], prev_events := ["CREATE"] },
      { id := "IJR", sender := alice, ev_type := EventType.roomJoinRules,
        state_key := some "",
        content := Content.joinRule JoinRule.publicRule,
        auth_events := ["CREATE", "IMA"], prev_events := ["IMA"] },
      { id := "IMB", sender := bob, ev_type := EventType.roomMember,
        state_key := some bob, content := memberJoin,
        auth_events := ["CREATE", "IJR"], prev_events := ["IJR"] },
      { id := "IMC", sender := charlie, ev_type := EventType.roomMember,
        state_key := some charlie, content := memberJoin,
        auth_events := ["CREATE", "IJR"], prev_events := ["IJR"] } ]

/-- The store `TestStore::set_up` fills. -/
def setUpStore : Store := setUpEvents.map (fun e => (e.event_id, e))

/-- Fetch function over the set-up store. -/
def setUpFetch : Fetch := fun i => assocLookup setUpStore i

/-- `state_at_bob`: create, alice's membership, join rules, bob's join. -/
def stateAtBob : StateMap :=
  [((EventType.roomCreate, ""), "$CREATE:foo"),
   ((EventType.roomMember, alice), "$IMA:foo"),
   ((EventType.roomJoinRules, ""), "$IJR:foo"),
   ((EventType.roomMember, bob), "$IMB:foo")]

/-- `state_at_charlie`: create, alice's membership, join rules, charlie's
join. -/
def stateAtCharlie : StateMap :=
  [((EventType.roomCreate, ""), "$CREATE:foo"),
   ((EventType.roomMember, alice), "$IMA:foo"),
   ((EventType.roomJoinRules, ""), "$IJR:foo"),
   ((EventType.roomMember, charlie), "$IMC:foo")]

/-- `expected`: the union of both state maps. -/
def expectedBoth : StateMap :=
  [((EventType.roomCreate, ""), "$CREATE:foo"),
   ((EventType.roomMember, alice), "$IMA:foo"),
   ((EventType.roomJoinRules, ""), "$IJR:foo"),
   ((EventType.roomMember, bob), "$IMB:foo"),
   ((EventType.roomMember, charlie), "$IMC:foo")]

/-- The auth chain of bob's state map (as `do_check` computes it with
`TestStore::auth_event_ids` over the map's values). -/
def chainBob : List EventId :=
  match authEventIds setUpStore (stateAtBob.map Prod.snd) with
  | .ok l => l
  | .error _ => []

/-- The auth chain of charlie's state map. -/
def chainCharlie : List EventId :=
  match authEventIds setUpStore (stateAtCharlie.map Prod.snd) with
  | .ok l => l
  | .error _ => []

/-- The scenario-B resolution: the two concurrent-join state maps with
their auth chains over the set-up store. -/
def resolvedSetUp : Except ResError StateMap :=
  resolve RoomVersion.V6 [stateAtBob, stateAtCharlie]
    [chainBob, chainCharlie] setUpFetch

/-- The builder arguments of the eight `INITIAL_EVENTS`. -/
def initialArgs : List PduArgs :=
    [ { id := "CREATE", sender := alice, ev_type := EventType.roomCreate,
        state_key := some "", content := Content.create alice },
      { id := "IMA", sender := alice, ev_type := EventType.roomMember,
        state_key := some alice, content := memberJoin,
        auth_events := ["CREATE"], prev_events := ["CREATE"] },
      { id := "IPOWER", sender := alice,
        ev_type := EventType.roomPowerLevels, state_key := some "",
        content := Content.power { users := [(alice, 100)] },
        auth_events := ["CREATE", "IMA"], prev_events := ["IMA"] },
      { id := "IJR", sender := alice, ev_type := EventType.roomJoinRules,
        state_key := some "",
        content := Content.joinRule JoinRule.publicRule,
        auth_events := ["CREATE", "IMA", "IPOWER"],
        prev_events := ["IPOWER"] },
      { id := "IMB", sender := bob, ev_type := EventType.roomMember,
        state_key := some bob, content := memberJoin,
        auth_events := ["CREATE", "IJR", "IPOWER"],
        prev_events := ["IJR"] },
      { id := "IMC", sender := charlie, ev_type := EventType.roomMember,
        state_key := some charlie, content := memberJoin,
        auth_events := ["CREATE", "IJR", "IPOWER"],
        prev_events := ["IMB"] },
      { id := "START", sender := charlie, ev_type := EventType.roomMessage,
        state_key := some "dummy", content := Content.otherContent },
      { id := "END", sender := charlie, ev_type := EventType.roomMessage,
        state_key := some "dummy", content := Content.otherContent } ]

/-- The eight events of `INITIAL_EVENTS` (the shared counter is modelled
as starting at 0). -/
def initialEvents : List StateEvent := buildAll 0 initialArgs

/-- The state map the scenario-B resolution computes. -/
def resolvedSetUpMap : StateMap :=
  [((EventType.roomMember, charlie), "$IMC:foo"),
   ((EventType.roomJoinRules, ""), "$IJR:foo"),
   ((EventType.roomMember, alice), "$IMA:foo"),
   ((EventType.roomCreate, ""), "$CREATE:foo"),
   ((EventType.roomMember, bob), "$IMB:foo")]

theorem smLookup_some_memKey (m : StateMap) (k : StateKey) (v : EventId)
    (h : smLookup m k = some v) : k ∈ m.map Prod.fst := by
  induction m with
  | nil => simp [smLookup] at h
  | cons p rest ih =>
    simp only [smLookup] at h
    by_cases hk : p.1 = k
    · exact List.mem_map.2 ⟨p, List.mem_cons_self _ _, hk⟩
    · rw [if_neg hk] at h
      exact List.mem_cons_of_mem _ (ih h)

theorem dedup_const {v : EventId} :
    ∀ (l : List EventId), l ≠ [] → (∀ x ∈ l, x = v) → l.dedup = [v] := by
  intro l
  induction l with
  | nil => intro h; exact absurd rfl h
  | cons x xs ih =>
    intro _ hall
    have hx : x = v := hall x (List.mem_cons_self _ _)
    subst hx
    by_cases hxs : xs = []
    · subst hxs; rfl
    · have hvxs : x ∈ xs := by
        obtain ⟨y, hy⟩ := List.exists_mem_of_ne_nil xs hxs
        have : y = x := hall y (List.mem_cons_of_mem _ hy)
        exact this ▸ hy
      rw [List.dedup_cons_of_mem hvxs]
      exact ih hxs (fun y hy => hall y (List.mem_cons_of_mem _ hy))

theorem valsAt_singleton (stateSets : List StateMap) (k : StateKey)
    (v : EventId) (hex : ∃ s ∈ stateSets, smLookup s k = some v)
    (hall : ∀ s ∈ stateSets,
      smLookup s k = none ∨ smLookup s k = some v) :
    valsAt stateSets k = [v] := by
  obtain ⟨s, hs, hsl⟩ := hex
  apply dedup_const
  · exact List.ne_nil_of_mem
      (List.mem_filterMap.2 ⟨s, hs, hsl⟩)
  · intro x hx
    obtain ⟨t, ht, htl⟩ := List.mem_filterMap.1 hx
    rcases hall t ht with h | h
    · rw [h] at htl; exact absurd htl (Option.noConfusion)
    · rw [h] at htl; injection htl with h'; exact h'.symm

theorem mem_allKeys (stateSets : List StateMap) (s : StateMap)
    (k : StateKey) (v : EventId) (hs : s ∈ stateSets)
    (hl : smLookup s k = some v) : k ∈ allKeys stateSets := by
  refine List.mem_dedup.2 (List.mem_flatten.2 ⟨s.map Prod.fst, ?_, ?_⟩)
  · exact List.mem_map.2 ⟨s, hs, rfl⟩
  · exact smLookup_some_memKey s k v hl

theorem smLookup_filterMap_match (f : StateKey → Option EventId) :
    ∀ (keys : List StateKey) (k : StateKey) (v : EventId),
      k ∈ keys → f k = some v →
      smLookup (keys.filterMap (fun kk =>
        match f kk with
        | some w => some (kk, w)
        | none => none)) k = some v := by
  intro keys
  induction keys with
  | nil => intro k v hk _; exact absurd hk (List.not_mem_nil k)
  | cons k0 ks ih =>
    intro k v hk hv
    rw [List.filterMap_cons]
    by_cases hk0 : k0 = k
    · subst hk0
      rw [hv]
      simp [smLookup]
    · have hk' : k ∈ ks := by
        rcases List.mem_cons.1 hk with h | h
        · exact absurd h.symm hk0
        · exact h
      cases hf0 : f k0 with
      | none => exact ih k v hk' hv
      | some w =>
        simp only [smLookup, if_neg hk0]
        exact ih k v hk' hv

theorem filterMap_match_keys_sublist (f : StateKey → Option EventId) :
    ∀ (keys : List StateKey),
      ((keys.filterMap (fun kk =>
        match f kk with
        | some w => some (kk, w)
        | none => none)).map Prod.fst).Sublist keys := by
  intro keys
  induction keys with
  | nil => simp
  | cons k0 ks ih =>
    rw [List.filterMap_cons]
    cases hf0 : f k0 with
    | none => exact ih.cons k0
    | some w =>
      simp only [List.map_cons]
      exact ih.cons₂ k0

theorem unconflicted_keys_nodup (stateSets : List StateMap) :
    ((unconflictedOf stateSets).map Prod.fst).Nodup :=
  List.Nodup.sublist (filterMap_match_keys_sublist _ (allKeys stateSets))
    (List.nodup_dedup _)

theorem overlay_lookup_not_mem :
    ∀ (unconf : StateMap) (base : StateMap) (k : StateKey),
      k ∉ unconf.map Prod.fst →
      smLookup (overlay base unconf) k = smLookup base k := by
  intro unconf
  induction unconf with
  | nil => intro base k _; rfl
  | cons p rest ih =>
    intro base k hk
    simp only [List.map_cons, List.mem_cons] at hk
    push_neg at hk
    have h1 : smLookup (overlay (smInsert base p.1 p.2) rest) k
        = smLookup (smInsert base p.1 p.2) k := ih _ k hk.2
    have h2 : smLookup (smInsert base p.1 p.2) k = smLookup base k :=
      smLookup_insert_ne base p.1 k p.2 hk.1
    exact h1.trans h2

theorem overlay_lookup :
    ∀ (unconf : StateMap) (base : StateMap) (k : StateKey) (v : EventId),
      (unconf.map Prod.fst).Nodup →
      smLookup unconf k = some v →
      smLookup (overlay base unconf) k = some v := by
  intro unconf
  induction unconf with
  | nil => intro base k v _ h; exact absurd h (by simp [smLookup])
  | cons p rest ih =>
    intro base k v hnd h
    simp only [List.map_cons, List.nodup_cons] at hnd
    simp only [smLookup] at h
    by_cases hk : p.1 = k
    · rw [if_pos hk] at h
      injection h with h'
      subst h'
      subst hk
      have hnm : p.1 ∉ rest.map Prod.fst := hnd.1
      have := overlay_lookup_not_mem rest (smInsert base p.1 p.2) p.1 hnm
      rw [show overlay base (p :: rest)
          = overlay (smInsert base p.1 p.2) rest from rfl, this]
      exact smLookup_insert_self base p.1 p.2
    · rw [if_neg hk] at h
      exact ih (smInsert base p.1 p.2) k v hnd.2 h

theorem resolve_ok_overlay (rv : RoomVersion) (stateSets : List StateMap)
    (authChainSets : List (List EventId)) (fetch : Fetch) (m : StateMap)
    (h : resolve rv stateSets authChainSets fetch = .ok m) :
    ∃ base, m = overlay base (unconflictedOf stateSets) := by
  simp only [resolve] at h
  split at h
  · exact absurd h (by simp)
  · split at h
    · exact absurd h (by simp)
    · simp only [Except.ok.injEq] at h
      exact ⟨_, h.symm⟩

/-- C1 (determinism): two invocations of `resolve` on the same inputs
(room version, state sets, aligned auth-chain sets, fetch function) return
the same result, and in particular equal state maps with identical key
sets and per-key values. -/
theorem resolve_deterministic (rv : RoomVersion)
    (stateSets : List StateMap) (authChainSets : List (List EventId))
    (fetch : Fetch) (r1 r2 : Except ResError StateMap)
    (h1 : resolve rv stateSets authChainSets fetch = r1)
    (h2 : resolve rv stateSets authChainSets fetch = r2) :
    r1 = r2 ∧ ∀ m1 m2, r1 = .ok m1 → r2 = .ok m2 →
      smEquivB m1 m2 = true := by
  subst h1
  subst h2
  refine ⟨rfl, ?_⟩
  intro m1 m2 hm1 hm2
  rw [hm1] at hm2
  injection hm2 with h
  subst h
  exact (smEquivB_iff m1 m1).2 (fun _ => rfl)

/-- Witness for C1: the determinism theorem applied to the scenario-B
inputs. -/
theorem resolve_deterministic_witness :
    (Except.ok resolvedSetUpMap : Except ResError StateMap)
        = .ok resolvedSetUpMap ∧
      smEquivB resolvedSetUpMap resolvedSetUpMap = true :=
  have h := resolve_deterministic RoomVersion.V6
    [stateAtBob, stateAtCharlie] [chainBob, chainCharlie] setUpFetch
    (.ok resolvedSetUpMap) (.ok resolvedSetUpMap) rfl rfl
  ⟨h.1, h.2 resolvedSetUpMap resolvedSetUpMap rfl rfl⟩

/-- C3 (monotone unconflicted overlay, and the two-concurrent-joins
scenario): every key that is unconflicted across the input state sets (all
maps containing it agree, or only one contains it) appears in a successful
`resolve` output with the common value; concretely, resolving
`state_at_bob` and `state_at_charlie` from `TestStore::set_up` yields the
union of both maps, with bob's and charlie's memberships both resolving to
their join events. -/
theorem resolve_unconflicted_overlay :
    (∀ rv stateSets authChainSets fetch m k v,
      resolve rv stateSets authChainSets fetch = .ok m →
      (∃ s ∈ stateSets, smLookup s k = some v) →
      (∀ s ∈ stateSets, smLookup s k = none ∨ smLookup s k = some v) →
      smLookup m k = some v) ∧
    (∃ m, resolvedSetUp = .ok m ∧ smEquivB m expectedBoth = true ∧
      smLookup m (EventType.roomMember, bob) = some "$IMB:foo" ∧
      smLookup m (EventType.roomMember, charlie) = some "$IMC:foo") := by
  constructor
  · intro rv stateSets authChainSets fetch m k v hok hex hall
    obtain ⟨base, hm⟩ :=
      resolve_ok_overlay rv stateSets authChainSets fetch m hok
    have hv : uncValAt stateSets k = some v := by
      simp only [uncValAt, valsAt_singleton stateSets k v hex hall]
    obtain ⟨s, hs, hsl⟩ := hex
    have hu : smLookup (unconflictedOf stateSets) k = some v :=
      smLookup_filterMap_match _ (allKeys stateSets) k v
        (mem_allKeys stateSets s k v hs hsl) hv
    rw [hm]
    exact overlay_lookup _ base k v (unconflicted_keys_nodup stateSets) hu
  · exact ⟨resolvedSetUpMap, rfl, rfl, rfl, rfl⟩

/-- Witness for C3's general conjunct: the unconflicted create entry of
the scenario-B inputs survives into the resolved map. -/
theorem resolve_unconflicted_overlay_witness :
    smLookup resolvedSetUpMap (EventType.roomCreate, "")
      = some "$CREATE:foo" :=
  (resolve_unconflicted_overlay).1 RoomVersion.V6
    [stateAtBob, stateAtCharlie] [chainBob, chainCharlie] setUpFetch
    resolvedSetUpMap (EventType.roomCreate, "") "$CREATE:foo"
    rfl (by decide) (by decide)

/-- The full conflicted set of the scenario-B inputs. -/
def fullConfB : List EventId :=
  fullConflictedOf [stateAtBob, stateAtCharlie] [chainBob, chainCharlie]

/-- The fetched conflicted events of the scenario-B inputs. -/
def conflictedEvs : List StateEvent :=
  match fetchAll setUpFetch fullConfB with
  | .ok l => l
  | .error _ => []

/-- The stage-3 control set of the scenario-B inputs. -/
def ctrlB : List EventId := ctrlIdsOf conflictedEvs fullConfB

/-- The stage-3 topological order of the scenario-B inputs. -/
def sortedB : List EventId :=
  match lexTopoSort (ctrlGraph conflictedEvs ctrlB)
      (idSortKey setUpFetch conflictedEvs) with
  | .ok l => l
  | .error _ => []

/-- A join-rules event whose rule is `invite` (used to exhibit a denial). -/
def ijr2Event : StateEvent :=
  { event_id := "$IJR2:foo", sender := alice,
    event_type := EventType.roomJoinRules, state_key := some "",
    content := Content.joinRule JoinRule.inviteRule, auth_events := [],
    prev_events := [], origin_server_ts := 0 }

/-- A join attempt by an outsider against an invite-only room (denied by
the member rules). -/
def zaraJoinEvent : StateEvent :=
  { event_id := "$IMZ:foo", sender := "@zara:foo",
    event_type := EventType.roomMember, state_key := some "@zara:foo",
    content := memberJoin, auth_events := [], prev_events := [],
    origin_server_ts := 1 }

/-- Fetch over the invite-only fixture. -/
def denyFetch : Fetch :=
  fun i => if i = "$IJR2:foo" then some ijr2Event else none

/-- A partial state holding only the invite-only join rule. -/
def denyState : StateMap := [((EventType.roomJoinRules, ""), "$IJR2:foo")]

/-- C7 (auth denials are not resolver errors): a replay step whose event
the auth rule engine denies leaves the partial state unchanged — the
denied event's id is simply not adopted — and whenever the resolver's only
fallible steps (fetching the full conflicted set and the stage-3
topological sort) succeed, `resolve` returns `Ok` with the replayed and
overlaid result, regardless of any denials during replay. -/
theorem resolve_denial_no_error :
    (∀ rv fetch S e,
      authCheck rv fetch (replayAuthState fetch S e) e = false →
      replayStep rv fetch S e = S) ∧
    (∀ rv stateSets authChainSets fetch evs sorted,
      fetchAll fetch (fullConflictedOf stateSets authChainSets) = .ok evs →
      lexTopoSort
        (ctrlGraph evs (ctrlIdsOf evs
          (fullConflictedOf stateSets authChainSets)))
        (idSortKey fetch evs) = .ok sorted →
      resolve rv stateSets authChainSets fetch =
        .ok (resolveStages rv fetch (unconflictedOf stateSets) evs
          (ctrlIdsOf evs (fullConflictedOf stateSets authChainSets))
          sorted)) := by
  constructor
  · intro rv fetch S e h
    simp [replayStep, h]
  · intro rv stateSets authChainSets fetch evs sorted hf hs
    simp only [resolve, hf, hs]

/-- Witness for C7: zara's denied join leaves the partial state unchanged,
and the scenario-B resolution returns `Ok` through the composition
conjunct. -/
theorem resolve_denial_no_error_witness :
    replayStep RoomVersion.V6 denyFetch denyState zaraJoinEvent
        = denyState ∧
      resolve RoomVersion.V6 [stateAtBob, stateAtCharlie]
          [chainBob, chainCharlie] setUpFetch =
        .ok (resolveStages RoomVersion.V6 setUpFetch
          (unconflictedOf [stateAtBob, stateAtCharlie]) conflictedEvs
          (ctrlIdsOf conflictedEvs
            (fullConflictedOf [stateAtBob, stateAtCharlie]
              [chainBob, chainCharlie]))
          sortedB) :=
  ⟨(resolve_denial_no_error).1 RoomVersion.V6 denyFetch denyState
      zaraJoinEvent rfl,
   (resolve_denial_no_error).2 RoomVersion.V6 [stateAtBob, stateAtCharlie]
      [chainBob, chainCharlie] setUpFetch conflictedEvs sortedB rfl rfl⟩

/-- Whether the scenario-B resolver output holds exactly one
`m.room.create` entry, mapping to the create event. -/
def resolvedCreateCheck : Bool :=
  match resolvedSetUp with
  | .ok m =>
    (m.filter (fun p => p.1.1 = EventType.roomCreate)).map Prod.snd
      = ["$CREATE:foo"]
  | .error _ => false

/-- C6 (single create invariant): `INITIAL_EVENTS` and the store built by
`TestStore::set_up` each contain exactly one `m.room.create` event, that
event has empty `prev_events` and empty `auth_events`, and the resolver
output of the harness's scenario-B resolution contains exactly one
`m.room.create` entry, mapping to that create event. -/
theorem single_create_invariant :
    (initialEvents.filter
        (fun e => e.event_type = EventType.roomCreate)).length = 1 ∧
      initialEvents.all (fun e => e.event_type ≠ EventType.roomCreate ||
        (decide (e.prev_events = []) && decide (e.auth_events = [])))
        = true ∧
      (setUpEvents.filter
        (fun e => e.event_type = EventType.roomCreate)).length = 1 ∧
      setUpEvents.all (fun e => e.event_type ≠ EventType.roomCreate ||
        (decide (e.prev_events = []) && decide (e.auth_events = [])))
        = true ∧
      resolvedCreateCheck = true :=
  ⟨rfl, rfl, rfl, rfl, rfl⟩

theorem buildAll_ts :
    ∀ (args : List PduArgs) (c i : Nat) (e : StateEvent),
      (buildAll c args).get? i = some e →
      e.origin_server_ts = c + i := by
  intro args
  induction args with
  | nil => intro c i e h; simp [buildAll] at h
  | cons a rest ih =>
    intro c i e h
    cases i with
    | zero =>
      have h' : some (toPduEvent c a) = some e := by
        simpa [buildAll] using h
      injection h' with h''
      rw [← h'']
      rfl
    | succ i =>
      have h' : (buildAll (c + 1) rest).get? i = some e := by
        simpa [buildAll] using h
      rw [ih (c + 1) i e h']
      omega

/-- C8 (shared timestamp counter): events built by consecutive
`to_pdu_event` / `to_init_pdu_event` calls draw their `origin_server_ts`
from one counter bumped by one per call, so the timestamps of a built
sequence are strictly increasing in construction order and in particular
pairwise distinct. -/
theorem toPduEvent_counter_timestamps (c : Nat) (args : List PduArgs)
    (i j : Nat) (ea eb : StateEvent)
    (hi : (buildAll c args).get? i = some ea)
    (hj : (buildAll c args).get? j = some eb) (hij : i < j) :
    ea.origin_server_ts < eb.origin_server_ts ∧
      ea.origin_server_ts ≠ eb.origin_server_ts := by
  have h1 := buildAll_ts args c i ea hi
  have h2 := buildAll_ts args c j eb hj
  constructor
  · omega
  · omega

/-- The event at an index of a built list (defaulting, for total
access). -/
def evAt (l : List StateEvent) (i : Nat) : StateEvent :=
  (l.get? i).getD (toPduEvent 0
    { id := "NONE", sender := "", ev_type := EventType.roomMessage,
      state_key := none, content := Content.otherContent })

/-- Witness for C8: the first two `INITIAL_EVENTS` get strictly increasing
distinct timestamps. -/
theorem toPduEvent_counter_timestamps_witness :
    (evAt initialEvents 0).origin_server_ts
        < (evAt initialEvents 1).origin_server_ts ∧
      (evAt initialEvents 0).origin_server_ts
        ≠ (evAt initialEvents 1).origin_server_ts :=
  toPduEvent_counter_timestamps 0 initialArgs 0 1
    (evAt initialEvents 0) (evAt initialEvents 1) rfl rfl (by decide)

/-- The end-state filter of `do_check`: keep an entry of the resolved END
state when its key appears in `expected_state`, or when its value differs
from the START state's value at that key and the key is not the
`(m.room.message, "dummy")` marker (`&&` binds tighter than `||`, as in
the Rust source). -/
def endStateFiltered (expected start endm : StateMap) : StateMap :=
  endm.filter (fun p =>
    smContains expected p.1 ||
      (decide (smLookup start p.1 ≠ some p.2) &&
        decide (p.1 ≠ (EventType.roomMessage, "dummy"))))

/-- C10 (do_check end-state filter): the asserted end state holds exactly
those entries of the resolved END state whose key appears in
`expected_state`, or whose value differs from the START state's value and
whose key is not the dummy-message key; in particular an expected key is
kept even when unchanged, while an unexpected unchanged key or a changed
dummy-message key is dropped. -/
theorem do_check_end_state_filter :
    (∀ (expected start endm : StateMap) (k : StateKey) (v : EventId),
      ((k, v) ∈ endStateFiltered expected start endm ↔
        ((k, v) ∈ endm ∧ (smContains expected k = true ∨
          (smLookup start k ≠ some v ∧
            k ≠ (EventType.roomMessage, "dummy")))))) ∧
    (∀ (expected start endm : StateMap) (k : StateKey) (v : EventId),
      smContains expected k = true → (k, v) ∈ endm →
      smLookup start k = some v →
      (k, v) ∈ endStateFiltered expected start endm) ∧
    (∀ (expected start endm : StateMap) (k : StateKey) (v : EventId),
      smContains expected k = false → smLookup start k = some v →
      (k, v) ∉ endStateFiltered expected start endm) ∧
    (∀ (expected start endm : StateMap) (k : StateKey) (v : EventId),
      smContains expected k = false → k = (EventType.roomMessage, "dummy") →
      (k, v) ∉ endStateFiltered expected start endm) := by
  have hchar : ∀ (expected start endm : StateMap) (k : StateKey)
      (v : EventId),
      ((k, v) ∈ endStateFiltered expected start endm ↔
        ((k, v) ∈ endm ∧ (smContains expected k = true ∨
          (smLookup start k ≠ some v ∧
            k ≠ (EventType.roomMessage, "dummy"))))) := by
    intro expected start endm k v
    simp only [endStateFiltered, List.mem_filter, Bool.or_eq_true,
      Bool.and_eq_true, decide_eq_true_eq]
  refine ⟨hchar, ?_, ?_, ?_⟩
  · intro expected start endm k v hc hm _
    exact (hchar expected start endm k v).2 ⟨hm, Or.inl hc⟩
  · intro expected start endm k v hc hs hmem
    obtain ⟨_, hor⟩ := (hchar expected start endm k v).1 hmem
    rcases hor with h | h
    · rw [hc] at h; exact Bool.noConfusion h
    · exact h.1 hs
  · intro expected start endm k v hc hk hmem
    obtain ⟨_, hor⟩ := (hchar expected start endm k v).1 hmem
    rcases hor with h | h
    · rw [hc] at h; exact Bool.noConfusion h
    · exact h.2 hk

/-- Witness for C10: an expected key is kept even though its value equals
the START state's value. -/
theorem do_check_end_state_filter_witness :
    ((EventType.roomCreate, ""), "$CREATE:foo") ∈
      endStateFiltered [((EventType.roomCreate, ""), "$CREATE:foo")]
        [((EventType.roomCreate, ""), "$CREATE:foo")]
        [((EventType.roomCreate, ""), "$CREATE:foo")] :=
  (do_check_end_state_filter).2.1
    [((EventType.roomCreate, ""), "$CREATE:foo")]
    [((EventType.roomCreate, ""), "$CREATE:foo")]
    [((EventType.roomCreate, ""), "$CREATE:foo")]
    (EventType.roomCreate, "") "$CREATE:foo" rfl (by decide) rfl

end Ruma

namespace Ruma.KeyId

/-- `KeyId::from_parts`: concatenates the algorithm, a colon, and the key
name (embedded from `key_id.rs`). -/
def fromParts (algorithm keyName : String) : String :=
  algorithm ++ ":" ++ keyName

/-- The index of the first colon of the underlying string, as a
`takeWhile`-style split (embedded from `KeyId::colon_idx` / `algorithm`:
the slice of the string up to the first colon). -/
def algorithmOf (s : String) : String :=
  (s.toList.takeWhile (fun c => c ≠ ':')).asString

/-- `KeyId::key_name`: the slice of the underlying string after the first
colon. -/
def keyNameOf (s : String) : String :=
  ((s.toList.dropWhile (fun c => c ≠ ':')).drop 1).asString

theorem takeWhile_append_of_all {p : Char → Bool} (l r : List Char)
    (h : ∀ c ∈ l, p c = true) (x : Char) (hx : p x = false) :
    (l ++ x :: r).takeWhile p = l := by
  induction l with
  | nil => simp [List.takeWhile, hx]
  | cons a l ih =>
    have ha : p a = true := h a (List.mem_cons_self a l)
    have ih' := ih (fun c hc => h c (List.mem_cons_of_mem a hc))
    simp [List.takeWhile_cons, ha, ih']

theorem dropWhile_append_of_all {p : Char → Bool} (l r : List Char)
    (h : ∀ c ∈ l, p c = true) (x : Char) (hx : p x = false) :
    (l ++ x :: r).dropWhile p = x :: r := by
  induction l with
  | nil => simp [List.dropWhile, hx]
  | cons a l ih =>
    have ha : p a = true := h a (List.mem_cons_self a l)
    have ih' := ih (fun c hc => h c (List.mem_cons_of_mem a hc))
    simp [List.dropWhile_cons, ha, ih']

theorem toList_fromParts (algorithm keyName : String) :
    (fromParts algorithm keyName).toList
      = algorithm.toList ++ ':' :: keyName.toList := by
  simp [fromParts, String.toList, String.data_append]

/-- C9 (round trip of `KeyId::from_parts` with the `algorithm`/`key_name`
accessors): if the algorithm's string form contains no colon, both accessors
recover their inputs, because the accessors split at the first colon, which
is exactly the separator `from_parts` wrote. -/
theorem fromParts_roundtrip (algorithm keyName : String)
    (halg : ∀ c ∈ algorithm.toList, c ≠ ':') :
    algorithmOf (fromParts algorithm keyName) = algorithm ∧
      keyNameOf (fromParts algorithm keyName) = keyName := by
  have hmain := toList_fromParts algorithm keyName
  have hall : ∀ c ∈ algorithm.toList, (fun c => decide (c ≠ ':')) c = true := by
    intro c hc; exact decide_eq_true (halg c hc)
  have hx : (fun c => decide (c ≠ ':')) ':' = false := by decide
  constructor
  · unfold algorithmOf
    rw [hmain, takeWhile_append_of_all _ _ hall _ hx]
    exact String.asString_toList algorithm
  · unfold keyNameOf
    rw [hmain, dropWhile_append_of_all _ _ hall _ hx]
    show (keyName.toList).asString = keyName
    exact String.asString_toList keyName

/-- Witness for C9: a device key id round-trips, preserving a colon inside
the key name (the accessors split at the first colon only). -/
theorem fromParts_roundtrip_witness :
    algorithmOf (fromParts "ed25519" "MY:DEVICE") = "ed25519" ∧
      keyNameOf (fromParts "ed25519" "MY:DEVICE") = "MY:DEVICE" :=
  fromParts_roundtrip "ed25519" "MY:DEVICE" (by decide)

end Ruma.KeyId
